import Mathlib

/-!
Shallow embedding of the field-extraction core of the OCR_Scanners
repository (`extract_details` in `app.py`, lines 191-231), together with a
spec-modelled record assembler for the production entry point
`extract_business_card_details`, whose source is not part of the snapshot.

Text is modelled as `List Char` (ASCII model of Python `str`: the whitespace
classes, `str.lower`, `str.isdigit` and the regex character classes are
embedded at their ASCII meaning, which covers every behaviour the claims
exercise).  The two regular expressions of the source are embedded as
executable matchers that follow Python `re.search` semantics for exactly
those patterns: leftmost match with greedy backtracking for the e-mail
pattern, and for the phone pattern the `^`/`$` anchors without
`re.MULTILINE`, i.e. `^` matches only at position 0 and `$` matches at the
end of the string or just before a final newline.
-/

namespace OCRScan

/-- Sentinel used by `extract_details` for an unresolved field. -/
def notFound : List Char := "Not Found".data

/-- Python whitespace (ASCII part), as used by `str.strip` and `str.split`. -/
def isPySpace (c : Char) : Bool :=
  c == ' ' || c == '\t' || c == '\n' || c == '\r' || c == '\x0b' || c == '\x0c'

/-- Python `str.strip()` on the ASCII model. -/
def pyStrip (cs : List Char) : List Char :=
  ((cs.dropWhile isPySpace).reverse.dropWhile isPySpace).reverse

/-- Split a character list at every character satisfying `p`, keeping empty
pieces, as Python `str.split(sep)` does for a one-character separator. -/
def splitOn (p : Char → Bool) : List Char → List (List Char)
  | [] => [[]]
  | c :: rest =>
    if p c then [] :: splitOn p rest
    else
      match splitOn p rest with
      | l :: ls => (c :: l) :: ls
      | [] => [[c]]

/-- Python `str.split()` with no argument: split on whitespace runs,
discarding empty pieces. -/
def pyWords (cs : List Char) : List (List Char) :=
  (splitOn isPySpace cs).filter (fun l => !l.isEmpty)

/-- Embedding of `lines = [line.strip() for line in text.split("\n") if line.strip()]`. -/
def linesOf (text : List Char) : List (List Char) :=
  ((splitOn (fun c => c == '\n') text).map pyStrip).filter (fun l => !l.isEmpty)

/-- Character class `[a-zA-Z0-9._%+-]` of the e-mail pattern. -/
def isLocalChar (c : Char) : Bool :=
  c.isAlphanum || c == '.' || c == '_' || c == '%' || c == '+' || c == '-'

/-- Character class `[a-zA-Z0-9.-]` of the e-mail pattern. -/
def isDomainChar (c : Char) : Bool :=
  c.isAlphanum || c == '.' || c == '-'

/-- Backtracking for the tail `[a-zA-Z0-9.-]+\.[a-zA-Z]\x7b2,\x7d` of the
e-mail pattern after `@`: the greedy engine tries the longest domain run
first, so `goDom l n` tries a domain part of length `n, n-1, ..., 1`, each
followed by a literal dot and a greedy alphabetic run of length at least 2. -/
def goDom (l : List Char) : Nat → Option (List Char)
  | 0 => none
  | k + 1 =>
    match l.drop (k + 1) with
    | '.' :: after =>
      if 2 ≤ (after.takeWhile Char.isAlpha).length then
        some (l.take (k + 1) ++ '.' :: after.takeWhile Char.isAlpha)
      else goDom l k
    | _ => goDom l k

/-- Match of `@` and the domain tail at the head of the given characters. -/
def emailTail : List Char → Option (List Char)
  | '@' :: rest =>
    match goDom rest ((rest.takeWhile isDomainChar).length) with
    | some tail => some ('@' :: tail)
    | none => none
  | _ => none

/-- Attempt of the whole e-mail pattern anchored at the head of `cs`: a
nonempty greedy local-part run (which is forced, since `@` is not a
local character), then `@` and the domain tail. -/
def emailMatchAt (cs : List Char) : Option (List Char) :=
  if (cs.takeWhile isLocalChar).isEmpty then none
  else
    match emailTail (cs.dropWhile isLocalChar) with
    | some tl => some (cs.takeWhile isLocalChar ++ tl)
    | none => none

/-- `re.search` for the e-mail pattern: first position (in document order)
at which the pattern matches wins. -/
def emailSearch : List Char → Option (List Char)
  | [] => none
  | c :: cs =>
    match emailMatchAt (c :: cs) with
    | some m => some m
    | none => emailSearch cs

/-- Character class `[\s.-]` of the phone pattern (ASCII model). -/
def isSep (c : Char) : Bool :=
  c == ' ' || c == '\t' || c == '\n' || c == '\r' || c == '\x0b' || c == '\x0c' ||
    c == '.' || c == '-'

/-- Python `$` without `re.MULTILINE`: end of string, or just before a
newline that ends the string. -/
def endOk : List Char → Bool
  | [] => true
  | ['\n'] => true
  | _ => false

/-- First-success choice, the backtracking order of the regex engine. -/
def orTry (a b : Option (List Char)) : Option (List Char) :=
  match a with
  | some x => some x
  | none => b

/-- Exit of the repetition `(?:\d[\s.-]\x7b0,3\x7d)\x7b7,15\x7d$`: allowed
once at least 7 repetitions were consumed and `$` holds here. -/
def phoneExit (cs : List Char) (count : Nat) : Option (List Char) :=
  if 7 ≤ count && endOk cs then some cs else none

/-- Greedy matching of the repetition of the phone pattern, returning the
remaining characters on success.  `count` repetitions have already been
consumed; each further repetition is one digit followed greedily by 0-3
separator characters (longest first); the engine prefers a further
repetition over exiting.  `fuel` only bounds the recursion and is chosen
larger than the input length at every call site. -/
def phoneRepsF : Nat → List Char → Nat → Option (List Char)
  | 0, _, _ => none
  | _ + 1, [], count => phoneExit [] count
  | fuel + 1, c :: rest, count =>
    if count < 15 && c.isDigit then
      orTry
        (if 3 ≤ min 3 ((rest.takeWhile isSep).length) then
          phoneRepsF fuel (rest.drop 3) (count + 1) else none)
        (orTry
          (if 2 ≤ min 3 ((rest.takeWhile isSep).length) then
            phoneRepsF fuel (rest.drop 2) (count + 1) else none)
          (orTry
            (if 1 ≤ min 3 ((rest.takeWhile isSep).length) then
              phoneRepsF fuel (rest.drop 1) (count + 1) else none)
            (orTry (phoneRepsF fuel rest (count + 1))
              (phoneExit (c :: rest) count))))
    else phoneExit (c :: rest) count

/-- Matching after the country-code mark `+` or `00`: greedily 0-3
separator characters, then the digit repetition. -/
def phonePre (cs : List Char) : Option (List Char) :=
  orTry
    (if 3 ≤ min 3 ((cs.takeWhile isSep).length) then
      phoneRepsF (cs.length + 1) (cs.drop 3) 0 else none)
    (orTry
      (if 2 ≤ min 3 ((cs.takeWhile isSep).length) then
        phoneRepsF (cs.length + 1) (cs.drop 2) 0 else none)
      (orTry
        (if 1 ≤ min 3 ((cs.takeWhile isSep).length) then
          phoneRepsF (cs.length + 1) (cs.drop 1) 0 else none)
        (phoneRepsF (cs.length + 1) cs 0)))

/-- The whole phone pattern anchored at position 0 (`^` without
`re.MULTILINE` matches only there): the optional group tries the
country-code branch first (`+` preferred over `00`) and falls back to the
empty alternative. -/
def phoneMatchRest (cs : List Char) : Option (List Char) :=
  match cs with
  | '+' :: rest => orTry (phonePre rest) (phoneRepsF (cs.length + 1) cs 0)
  | '0' :: '0' :: rest => orTry (phonePre rest) (phoneRepsF (cs.length + 1) cs 0)
  | _ => phoneRepsF (cs.length + 1) cs 0

/-- `re.search` for the phone pattern: because of the `^` anchor the only
possible match starts at position 0; the matched text is everything the
engine consumed before `$`. -/
def phoneSearch (cs : List Char) : Option (List Char) :=
  match phoneMatchRest cs with
  | some rest => some (cs.take (cs.length - rest.length))
  | none => none

/-- The blacklist `name_blacklist` of `extract_details`. -/
def name_blacklist : List (List Char) :=
  ["Phone", "Mobile", "Email", "Web", "Address", "Street", "Fax", "Direct"].map String.data

/-- Python substring containment (`w in l`). -/
def startsWith : List Char → List Char → Bool
  | [], _ => true
  | _ :: _, [] => false
  | a :: as, b :: bs => a == b && startsWith as bs

/-- Python `w in l`: `w` occurs as a contiguous substring of `l`. -/
def isSubstr (w : List Char) : List Char → Bool
  | [] => w.isEmpty
  | c :: rest => startsWith w (c :: rest) || isSubstr w rest

/-- Python `str.lower()` (ASCII model). -/
def lowerList (l : List Char) : List Char := l.map Char.toLower

/-- `any(word.lower() in line.lower() for word in name_blacklist)`. -/
def blacklistHit (l : List Char) : Bool :=
  name_blacklist.any (fun w => isSubstr (lowerList w) (lowerList l))

/-- The name-selection loop of `extract_details`, on the (already limited)
candidate lines: each filter failure is a `continue`; a surviving line is
taken iff its word count lies in `[2, 4]`, otherwise scanning continues. -/
def findName : List (List Char) → List Char
  | [] => notFound
  | l :: ls =>
    if l.length < 3 then findName ls
    else if l.contains '@' then findName ls
    else if l.any Char.isDigit then findName ls
    else if blacklistHit l then findName ls
    else if 2 ≤ (pyWords l).length ∧ (pyWords l).length ≤ 4 then l
    else findName ls

/-- Result triple of `extract_details` (the Python function returns
`(name, email, phone)`). -/
structure Details where
  name : List Char
  email : List Char
  phone : List Char
deriving DecidableEq

/-- Embedding of `extract_details` (app.py lines 191-231). -/
def extract_details (text : List Char) : Details :=
  { name := findName ((linesOf text).take 8)
    email :=
      match emailSearch text with
      | some m => m
      | none => notFound
    phone :=
      match phoneSearch text with
      | some m => pyStrip m
      | none => notFound }

/-- Modelled from the spec: the production entry point
`extract_business_card_details` is imported by `app.py` from a module
`extraction` that is not part of the supplied source.  Per spec section 4.4
it combines the pattern matchers and the name heuristic into a FieldRecord
with the fixed keys Name, JobTitle, Company, Email, Phone, Address,
Website, where the four fields of the unavailable richer extractor default
to the sentinel. -/
def extract_business_card_details (text : List Char) :
    List (List Char × List Char) :=
  let d := extract_details text
  [("Name".data, d.name),
   ("JobTitle".data, notFound),
   ("Company".data, notFound),
   ("Email".data, d.email),
   ("Phone".data, d.phone),
   ("Address".data, notFound),
   ("Website".data, notFound)]

/-- Stated from the spec's words, for the name claim: a candidate line
qualifies iff it is at least 3 characters long, contains no `@`, contains
no digit, contains no blacklist word as a case-insensitive substring, and
splits on whitespace into between 2 and 4 words inclusive. -/
def nameQualifies (l : List Char) : Bool :=
  decide (3 ≤ l.length) && !(l.contains '@') && !(l.any Char.isDigit) &&
    !(blacklistHit l) && decide (2 ≤ (pyWords l).length) &&
    decide ((pyWords l).length ≤ 4)

/-- Stated from the spec's words: the Name field is the first of the first
8 trimmed non-empty lines that qualifies, else the sentinel. -/
def nameSpec (text : List Char) : List Char :=
  (((linesOf text).take 8).find? nameQualifies).getD notFound

/-- Stated from the spec's words: a string of the shape
`local-part@domain.tld` — a nonempty local part, `@`, a nonempty domain
part, a dot, and a final label of 2 or more alphabetic characters. -/
def EmailShaped (s : List Char) : Prop :=
  ∃ lp dm tl, s = lp ++ '@' :: (dm ++ '.' :: tl) ∧
    lp ≠ [] ∧ (∀ c ∈ lp, isLocalChar c = true) ∧
    dm ≠ [] ∧ (∀ c ∈ dm, isDomainChar c = true) ∧
    2 ≤ tl.length ∧ (∀ c ∈ tl, Char.isAlpha c = true)

/-- An e-mail-shaped substring begins at position `p` of `text`. -/
def EmailAt (text : List Char) (p : Nat) : Prop :=
  ∃ s t, EmailShaped s ∧ s ++ t = text.drop p

theorem orTry_eq_some {a b : Option (List Char)} {r : List Char}
    (h : orTry a b = some r) : a = some r ∨ (a = none ∧ b = some r) := by
  cases a with
  | some x => exact Or.inl (by simpa [orTry] using h)
  | none => exact Or.inr ⟨rfl, by simpa [orTry] using h⟩

theorem takeWhile_length_le (p : Char → Bool) (l : List Char) :
    (l.takeWhile p).length ≤ l.length := by
  induction l with
  | nil => simp
  | cons c cs ih =>
    by_cases h : p c
    · simp only [List.takeWhile_cons, h, if_true, List.length_cons]
      omega
    · simp [List.takeWhile_cons, h]

theorem takeWhile_append_cons (p : Char → Bool) (a : List Char) (x : Char)
    (r : List Char) (ha : ∀ c ∈ a, p c = true) (hx : p x = false) :
    ((a ++ x :: r).takeWhile p) = a := by
  induction a with
  | nil => simp [List.takeWhile_cons, hx]
  | cons c cs ih =>
    have hc : p c = true := ha c (by simp)
    simp only [List.cons_append, List.takeWhile_cons, hc, if_true]
    exact congrArg (c :: ·) (ih (fun d hd => ha d (by simp [hd])))

theorem dropWhile_append_cons (p : Char → Bool) (a : List Char) (x : Char)
    (r : List Char) (ha : ∀ c ∈ a, p c = true) (hx : p x = false) :
    ((a ++ x :: r).dropWhile p) = x :: r := by
  induction a with
  | nil => simp [List.dropWhile_cons, hx]
  | cons c cs ih =>
    have hc : p c = true := ha c (by simp)
    simp only [List.cons_append, List.dropWhile_cons, hc, if_true]
    exact ih (fun d hd => ha d (by simp [hd]))

theorem length_le_takeWhile_append (p : Char → Bool) (a r : List Char)
    (ha : ∀ c ∈ a, p c = true) :
    a.length ≤ ((a ++ r).takeWhile p).length := by
  induction a with
  | nil => simp
  | cons c cs ih =>
    have hc : p c = true := ha c (by simp)
    simp only [List.cons_append, List.takeWhile_cons, hc, if_true, List.length_cons]
    exact Nat.succ_le_succ (ih (fun d hd => ha d (by simp [hd])))

theorem mem_take_of_le_takeWhile (p : Char → Bool) :
    ∀ (l : List Char) (j : Nat), j ≤ (l.takeWhile p).length →
      ∀ c ∈ l.take j, p c = true := by
  intro l
  induction l with
  | nil => intro j _ c hc; simp at hc
  | cons a as ih =>
    intro j hj c hc
    by_cases hp : p a
    · cases j with
      | zero => simp at hc
      | succ j' =>
        simp only [List.take_succ_cons, List.mem_cons] at hc
        rcases hc with hc | hc
        · exact hc ▸ hp
        · exact ih j' (by simpa [List.takeWhile_cons, hp] using hj) c hc
    · simp [List.takeWhile_cons, hp] at hj
      subst hj
      simp at hc

theorem mem_takeWhile_pred (p : Char → Bool) (l : List Char) :
    ∀ c ∈ l.takeWhile p, p c = true := by
  intro c hc
  exact List.mem_takeWhile_imp hc

theorem goDom_sound (l : List Char) :
    ∀ n tail, n ≤ (l.takeWhile isDomainChar).length → goDom l n = some tail →
      ∃ d a r2, tail = d ++ '.' :: a ∧ d ≠ [] ∧
        (∀ c ∈ d, isDomainChar c = true) ∧ 2 ≤ a.length ∧
        (∀ c ∈ a, Char.isAlpha c = true) ∧ tail ++ r2 = l := by
  intro n
  induction n with
  | zero => intro tail _ h; simp [goDom] at h
  | succ k ih =>
    intro tail hn h
    rw [goDom] at h
    split at h
    next after heq =>
      by_cases h2 : 2 ≤ (after.takeWhile Char.isAlpha).length
      · rw [if_pos h2] at h
        injection h with h'
        refine ⟨l.take (k + 1), after.takeWhile Char.isAlpha,
          after.dropWhile Char.isAlpha, h'.symm, ?_, ?_, h2,
          mem_takeWhile_pred _ _, ?_⟩
        · have hlen : k + 1 ≤ l.length := by
            have := congrArg List.length heq
            simp only [List.length_drop, List.length_cons] at this
            omega
          have ht : (l.take (k + 1)).length = k + 1 := by
            simp [List.length_take]
            omega
          intro hnil
          rw [hnil] at ht
          simp at ht
        · exact mem_take_of_le_takeWhile isDomainChar l (k + 1) hn
        · rw [← h']
          calc (l.take (k + 1) ++ '.' :: after.takeWhile Char.isAlpha) ++
                after.dropWhile Char.isAlpha
              = l.take (k + 1) ++ '.' ::
                  (after.takeWhile Char.isAlpha ++ after.dropWhile Char.isAlpha) := by
                simp
            _ = l.take (k + 1) ++ '.' :: after := by
                rw [List.takeWhile_append_dropWhile]
            _ = l.take (k + 1) ++ l.drop (k + 1) := by rw [heq]
            _ = l := List.take_append_drop _ _
      · rw [if_neg h2] at h
        exact ih tail (Nat.le_of_succ_le hn) h
    next => exact ih tail (Nat.le_of_succ_le hn) h

theorem goDom_complete (l after : List Char) (j : Nat) (hj1 : 1 ≤ j)
    (hdot : l.drop j = '.' :: after)
    (ha : 2 ≤ (after.takeWhile Char.isAlpha).length) :
    ∀ n, j ≤ n → ∃ t, goDom l n = some t := by
  intro n
  induction n with
  | zero => intro hn; omega
  | succ k ih =>
    intro hn
    rw [goDom]
    split
    next after' heq =>
      by_cases h2 : 2 ≤ (after'.takeWhile Char.isAlpha).length
      · exact ⟨_, if_pos h2⟩
      · have hj : j ≤ k := by
          rcases Nat.lt_or_ge j (k + 1) with hlt | hge
          · omega
          · exfalso
            have hj' : j = k + 1 := by omega
            subst hj'
            rw [hdot] at heq
            injection heq with _ h2'
            exact h2 (h2' ▸ ha)
        rw [if_neg h2]
        exact ih hj
    next hne =>
      have hj : j ≤ k := by
        by_contra hcon
        have hj' : j = k + 1 := by omega
        subst hj'
        exact hne after hdot
      exact ih hj

theorem emailTail_sound {d tl : List Char} (h : emailTail d = some tl) :
    ∃ rest dm a r2, d = '@' :: rest ∧ tl = '@' :: (dm ++ '.' :: a) ∧
      dm ≠ [] ∧ (∀ c ∈ dm, isDomainChar c = true) ∧ 2 ≤ a.length ∧
      (∀ c ∈ a, Char.isAlpha c = true) ∧ (dm ++ '.' :: a) ++ r2 = rest := by
  unfold emailTail at h
  split at h
  next rest =>
    split at h
    next tail hg =>
      injection h with h'
      obtain ⟨dm, a, r2, htail, hdm, hdmc, ha2, haal, hl⟩ :=
        goDom_sound rest _ tail le_rfl hg
      exact ⟨rest, dm, a, r2, rfl, by rw [← h', htail], hdm, hdmc, ha2, haal,
        by rw [← htail]; exact hl⟩
    next => exact absurd h (by simp)
  next => exact absurd h (by simp)

theorem emailMatchAt_sound {cs m : List Char} (h : emailMatchAt cs = some m) :
    EmailShaped m ∧ ∃ t, m ++ t = cs := by
  unfold emailMatchAt at h
  split at h
  · exact absurd h (by simp)
  next hne =>
    split at h
    next tl htl =>
      injection h with h'
      obtain ⟨rest, dm, a, r2, hd, htlv, hdm, hdmc, ha2, haal, hrest⟩ :=
        emailTail_sound htl
      constructor
      · refine ⟨cs.takeWhile isLocalChar, dm, a, ?_, ?_,
          mem_takeWhile_pred _ _, hdm, hdmc, ha2, haal⟩
        · rw [← h', htlv]
        · intro hc
          rw [hc] at hne
          simp at hne
      · refine ⟨r2, ?_⟩
        rw [← h', htlv]
        calc (cs.takeWhile isLocalChar ++ '@' :: (dm ++ '.' :: a)) ++ r2
            = cs.takeWhile isLocalChar ++ '@' :: ((dm ++ '.' :: a) ++ r2) := by
              simp
          _ = cs.takeWhile isLocalChar ++ '@' :: rest := by rw [hrest]
          _ = cs.takeWhile isLocalChar ++ cs.dropWhile isLocalChar := by rw [← hd]
          _ = cs := List.takeWhile_append_dropWhile ..
    next => exact absurd h (by simp)

theorem emailMatchAt_complete {cs s t : List Char} (hs : EmailShaped s)
    (hst : s ++ t = cs) : ∃ m, emailMatchAt cs = some m := by
  obtain ⟨lp, dm, tl, hshape, hlp, hlpc, hdm, hdmc, htl2, htla⟩ := hs
  have hcs : cs = lp ++ '@' :: (dm ++ '.' :: (tl ++ t)) := by
    rw [← hst, hshape]
    simp
  have hat : isLocalChar '@' = false := by decide
  have htw : cs.takeWhile isLocalChar = lp := by
    rw [hcs]
    exact takeWhile_append_cons _ _ _ _ hlpc hat
  have hdw : cs.dropWhile isLocalChar = '@' :: (dm ++ '.' :: (tl ++ t)) := by
    rw [hcs]
    exact dropWhile_append_cons _ _ _ _ hlpc hat
  have hdrop : (dm ++ '.' :: (tl ++ t)).drop dm.length = '.' :: (tl ++ t) :=
    List.drop_left _ _
  have halpha : 2 ≤ ((tl ++ t).takeWhile Char.isAlpha).length :=
    le_trans htl2 (length_le_takeWhile_append _ _ _ htla)
  have hdmlen : 1 ≤ dm.length := List.length_pos.mpr hdm
  have hle : dm.length ≤
      ((dm ++ '.' :: (tl ++ t)).takeWhile isDomainChar).length :=
    length_le_takeWhile_append _ _ _ hdmc
  obtain ⟨gt, hgt⟩ :=
    goDom_complete (dm ++ '.' :: (tl ++ t)) (tl ++ t) dm.length hdmlen hdrop
      halpha _ hle
  have htail : emailTail ('@' :: (dm ++ '.' :: (tl ++ t))) = some ('@' :: gt) := by
    simp only [emailTail]
    rw [hgt]
  refine ⟨lp ++ '@' :: gt, ?_⟩
  unfold emailMatchAt
  rw [htw, hdw, htail, if_neg (by simp [hlp])]

theorem emailSearch_none_iff (cs : List Char) :
    emailSearch cs = none ↔ ∀ p, emailMatchAt (cs.drop p) = none := by
  induction cs with
  | nil =>
    constructor
    · intro _ p
      rw [List.drop_nil]
      rfl
    · intro _
      rfl
  | cons c cs ih =>
    constructor
    · intro h p
      rw [emailSearch] at h
      cases hm : emailMatchAt (c :: cs) with
      | some m => rw [hm] at h; exact absurd h (by simp)
      | none =>
        rw [hm] at h
        cases p with
        | zero => exact hm
        | succ p' => exact (ih.mp h) p'
    · intro h
      rw [emailSearch]
      have h0 := h 0
      rw [List.drop_zero] at h0
      rw [h0]
      exact ih.mpr (fun p => h (p + 1))

theorem emailSearch_some {cs m : List Char} (h : emailSearch cs = some m) :
    ∃ p, emailMatchAt (cs.drop p) = some m ∧
      ∀ q < p, emailMatchAt (cs.drop q) = none := by
  induction cs with
  | nil => exact absurd h (by simp [emailSearch])
  | cons c cs ih =>
    rw [emailSearch] at h
    cases hm : emailMatchAt (c :: cs) with
    | some m' =>
      rw [hm] at h
      injection h with h'
      refine ⟨0, by rw [List.drop_zero, hm, h'], ?_⟩
      intro q hq
      omega
    | none =>
      rw [hm] at h
      obtain ⟨p, hp, hq⟩ := ih h
      refine ⟨p + 1, by simpa using hp, ?_⟩
      intro q hq'
      cases q with
      | zero => exact hm
      | succ q' => exact hq q' (by omega)

theorem phoneExit_sound {cs rest : List Char} {count : Nat}
    (h : phoneExit cs count = some rest) : rest = cs ∧ endOk rest = true := by
  unfold phoneExit at h
  split at h
  next hc =>
    injection h with h'
    subst h'
    simp only [Bool.and_eq_true] at hc
    exact ⟨rfl, hc.2⟩
  next => exact absurd h (by simp)

theorem drop_shift_sound {cs rest : List Char} {j : Nat} (hj : j ≤ cs.length)
    (hs : (∃ k, k ≤ (cs.drop j).length ∧ rest = (cs.drop j).drop k) ∧
      endOk rest = true) :
    (∃ k, k ≤ cs.length ∧ rest = cs.drop k) ∧ endOk rest = true := by
  obtain ⟨⟨k, hk, hrest⟩, hok⟩ := hs
  refine ⟨⟨k + j, ?_, ?_⟩, hok⟩
  · simp only [List.length_drop] at hk
    omega
  · rw [hrest, List.drop_drop, Nat.add_comm]

theorem phoneRepsF_sound :
    ∀ fuel cs count rest, phoneRepsF fuel cs count = some rest →
      (∃ k, k ≤ cs.length ∧ rest = cs.drop k) ∧ endOk rest = true := by
  intro fuel
  induction fuel with
  | zero => intro cs count rest h; simp [phoneRepsF] at h
  | succ f ih =>
    intro cs count rest h
    cases cs with
    | nil =>
      rw [phoneRepsF] at h
      obtain ⟨he, hok⟩ := phoneExit_sound h
      exact ⟨⟨0, by simp, by simp [he]⟩, hok⟩
    | cons c cs' =>
      have hexit : phoneExit (c :: cs') count = some rest →
          (∃ k, k ≤ (c :: cs').length ∧ rest = (c :: cs').drop k) ∧
            endOk rest = true := by
        intro he
        obtain ⟨he', hok⟩ := phoneExit_sound he
        exact ⟨⟨0, by simp, by simp [he']⟩, hok⟩
      have hsep : ((cs'.takeWhile isSep).length) ≤ cs'.length :=
        takeWhile_length_le _ _
      have hshift : ∀ j, j ≤ cs'.length →
          phoneRepsF f (cs'.drop j) (count + 1) = some rest →
          (∃ k, k ≤ (c :: cs').length ∧ rest = (c :: cs').drop k) ∧
            endOk rest = true := by
        intro j hjle hcall
        have : (∃ k, k ≤ ((c :: cs').drop (j + 1)).length ∧
            rest = ((c :: cs').drop (j + 1)).drop k) ∧ endOk rest = true := by
          simpa using ih _ _ _ hcall
        exact drop_shift_sound (by simpa using Nat.succ_le_succ hjle) this
      rw [phoneRepsF] at h
      split at h
      next hcond =>
        rcases orTry_eq_some h with hA | ⟨_, h⟩
        · split at hA
          next h3 =>
            exact hshift 3 (by omega) hA
          next => exact absurd hA (by simp)
        rcases orTry_eq_some h with hB | ⟨_, h⟩
        · split at hB
          next h2 =>
            exact hshift 2 (by omega) hB
          next => exact absurd hB (by simp)
        rcases orTry_eq_some h with hC | ⟨_, h⟩
        · split at hC
          next h1 =>
            exact hshift 1 (by omega) hC
          next => exact absurd hC (by simp)
        rcases orTry_eq_some h with hD | ⟨_, h⟩
        · exact hshift 0 (by omega) hD
        · exact hexit h
      next => exact hexit h

theorem phonePre_sound {cs rest : List Char} (h : phonePre cs = some rest) :
    (∃ k, k ≤ cs.length ∧ rest = cs.drop k) ∧ endOk rest = true := by
  have hsep : ((cs.takeWhile isSep).length) ≤ cs.length := takeWhile_length_le _ _
  have hshift : ∀ j, j ≤ cs.length →
      phoneRepsF (cs.length + 1) (cs.drop j) 0 = some rest →
      (∃ k, k ≤ cs.length ∧ rest = cs.drop k) ∧ endOk rest = true := by
    intro j hjle hcall
    exact drop_shift_sound hjle (phoneRepsF_sound _ _ _ _ hcall)
  unfold phonePre at h
  rcases orTry_eq_some h with hA | ⟨_, h⟩
  · split at hA
    next h3 => exact hshift 3 (by omega) hA
    next => exact absurd hA (by simp)
  rcases orTry_eq_some h with hB | ⟨_, h⟩
  · split at hB
    next h2 => exact hshift 2 (by omega) hB
    next => exact absurd hB (by simp)
  rcases orTry_eq_some h with hC | ⟨_, h⟩
  · split at hC
    next h1 => exact hshift 1 (by omega) hC
    next => exact absurd hC (by simp)
  · exact hshift 0 (by omega) h

theorem phoneMatchRest_sound {cs rest : List Char}
    (h : phoneMatchRest cs = some rest) :
    (∃ k, k ≤ cs.length ∧ rest = cs.drop k) ∧ endOk rest = true := by
  unfold phoneMatchRest at h
  split at h
  next rest' =>
    rcases orTry_eq_some h with hA | ⟨_, hB⟩
    · have hs := phonePre_sound hA
      exact @drop_shift_sound ('+' :: rest') _ 1 (by simp) hs
    · exact phoneRepsF_sound _ _ _ _ hB
  next rest' =>
    rcases orTry_eq_some h with hA | ⟨_, hB⟩
    · have hs := phonePre_sound hA
      exact @drop_shift_sound ('0' :: '0' :: rest') _ 2 (by simp) hs
    · exact phoneRepsF_sound _ _ _ _ hB
  next => exact phoneRepsF_sound _ _ _ _ h

theorem phoneSearch_split {text m : List Char} (h : phoneSearch text = some m) :
    ∃ rest, text = m ++ rest ∧ endOk rest = true ∧
      phoneMatchRest text = some rest := by
  unfold phoneSearch at h
  split at h
  next rest hr =>
    injection h with h'
    obtain ⟨⟨k, hk, hrest⟩, hok⟩ := phoneMatchRest_sound hr
    refine ⟨rest, ?_, hok, hr⟩
    have hlen : rest.length = text.length - k := by
      rw [hrest]
      simp
    have hk' : text.length - rest.length = k := by omega
    rw [← h', hk', hrest]
    exact (List.take_append_drop k text).symm
  next => exact absurd h (by simp)

theorem findName_cons (l : List Char) (ls : List (List Char)) :
    findName (l :: ls) = if nameQualifies l then l else findName ls := by
  cases hq : nameQualifies l with
  | true =>
    rw [if_pos rfl]
    rw [nameQualifies] at hq
    simp only [Bool.and_eq_true, Bool.not_eq_true', decide_eq_true_eq] at hq
    obtain ⟨⟨⟨⟨⟨hl3, hat⟩, hdig⟩, hbl⟩, hw2⟩, hw4⟩ := hq
    rw [findName, if_neg (by omega), if_neg (by simpa using hat),
      if_neg (by simpa using hdig), if_neg (by simpa using hbl),
      if_pos ⟨hw2, hw4⟩]
  | false =>
    rw [if_neg (by simp)]
    rw [findName]
    by_cases c1 : l.length < 3
    · rw [if_pos c1]
    · rw [if_neg c1]
      by_cases c2 : l.contains '@' = true
      · rw [if_pos c2]
      · rw [if_neg c2]
        by_cases c3 : l.any Char.isDigit = true
        · rw [if_pos c3]
        · rw [if_neg c3]
          by_cases c4 : blacklistHit l = true
          · rw [if_pos c4]
          · rw [if_neg c4]
            rw [if_neg ?_]
            rintro ⟨hw2, hw4⟩
            have hq' : nameQualifies l = true := by
              rw [nameQualifies]
              simp only [Bool.and_eq_true, Bool.not_eq_true', decide_eq_true_eq]
              exact ⟨⟨⟨⟨⟨by omega, by simpa using c2⟩, by simpa using c3⟩,
                by simpa using c4⟩, hw2⟩, hw4⟩
            rw [hq'] at hq
            exact absurd hq (by simp)

theorem findName_eq (ls : List (List Char)) :
    findName ls = (ls.find? nameQualifies).getD notFound := by
  induction ls with
  | nil => rfl
  | cons l ls ih =>
    rw [findName_cons]
    by_cases h : nameQualifies l
    · rw [if_pos h, List.find?_cons_of_pos _ h]
      rfl
    · rw [if_neg h, List.find?_cons_of_neg _ (by simpa using h)]
      exact ih

theorem extract_phone_none {text : List Char} (h : phoneSearch text = none) :
    (extract_details text).phone = notFound := by
  simp [extract_details, h]

theorem extract_phone_some {text m : List Char} (h : phoneSearch text = some m) :
    (extract_details text).phone = pyStrip m := by
  simp [extract_details, h]

theorem extract_email_none {text : List Char} (h : emailSearch text = none) :
    (extract_details text).email = notFound := by
  simp [extract_details, h]

theorem extract_email_some {text m : List Char} (h : emailSearch text = some m) :
    (extract_details text).email = m := by
  simp [extract_details, h]

theorem emailShaped_mem_at {s : List Char} (h : EmailShaped s) : '@' ∈ s := by
  obtain ⟨lp, dm, tl, hs, _⟩ := h
  rw [hs]
  simp

/-- Claim C1 counterexample: in the input "Call me\n+1 555 123 4567" the
second line is in its entirety a phone-shaped token (in isolation it is
matched and resolved, second conjunct), yet on the two-line input the code
resolves Phone to the sentinel: the pattern is anchored to the whole text,
not to a line, so the claim's whole-line reading is false. -/
theorem claim_C1_cex :
    (extract_details ("Call me\n+1 555 123 4567".data)).phone = notFound ∧
    (extract_details ("+1 555 123 4567".data)).phone =
      "+1 555 123 4567".data := by
  decide

/-- Claim C1 (amended): the Phone field resolves only when the phone
pattern matches the raw text in its entirety starting at character 0,
leaving at most a single final newline unmatched; the resolved value is
the stripped whole match, and otherwise Phone is the sentinel. -/
theorem claim_C1_thm (text : List Char) :
    (phoneSearch text = none → (extract_details text).phone = notFound) ∧
    ((extract_details text).phone ≠ notFound →
      ∃ m rest, phoneSearch text = some m ∧ text = m ++ rest ∧
        endOk rest = true ∧ (extract_details text).phone = pyStrip m) := by
  constructor
  · exact extract_phone_none
  · intro h
    cases hs : phoneSearch text with
    | none => exact absurd (extract_phone_none hs) h
    | some m =>
      obtain ⟨rest, hsplit, hok, _⟩ := phoneSearch_split hs
      exact ⟨m, rest, rfl, hsplit, hok, extract_phone_some hs⟩

/-- Witness for the amended C1 at two concrete inputs, one per hypothesis. -/
theorem claim_C1_witness :
    (extract_details ("abc".data)).phone = notFound ∧
    (∃ m rest, phoneSearch ("1234567".data) = some m ∧
      "1234567".data = m ++ rest ∧ endOk rest = true ∧
      (extract_details ("1234567".data)).phone = pyStrip m) :=
  ⟨(claim_C1_thm ("abc".data)).1 (by decide),
   (claim_C1_thm ("1234567".data)).2 (by decide)⟩

/-- Claim C2 counterexample: on the spec's example text Phone does not
resolve to "+1 555 123 4567": the phone pattern is anchored to the whole
text, which starts with "John", so it cannot match anywhere. -/
theorem claim_C2_cex :
    (extract_details
      ("John Smith\nSenior Engineer\nAcme Corp\njohn.smith@acme.com\n+1 555 123 4567".data)).phone ≠
      "+1 555 123 4567".data := by
  decide

/-- Claim C2 (amended): on the example text Email resolves to
"john.smith@acme.com" and Name to "John Smith" as claimed, but Phone
resolves to the sentinel "Not Found". -/
theorem claim_C2_thm :
    extract_details
      ("John Smith\nSenior Engineer\nAcme Corp\njohn.smith@acme.com\n+1 555 123 4567".data) =
      { name := "John Smith".data, email := "john.smith@acme.com".data,
        phone := notFound } := by
  decide

/-- Claim C3: for every input text, the Name field is the first of the
first 8 trimmed non-empty lines that is at least 3 characters long, has no
`@`, no digit, no blacklisted word as a case-insensitive substring, and
splits on whitespace into 2 to 4 words; if none qualifies, the sentinel. -/
theorem claim_C3_thm (text : List Char) :
    (extract_details text).name = nameSpec text :=
  findName_eq ((linesOf text).take 8)

/-- Claim C4: the Email field is the sentinel exactly when no
e-mail-shaped substring occurs anywhere in the raw text; otherwise it is
an e-mail-shaped string found at the first position, in document order, at
which any e-mail-shaped substring begins (substring search, so e-mails
embedded in longer lines are found). -/
theorem claim_C4_thm (text : List Char) :
    ((extract_details text).email = notFound ↔ ∀ p, ¬ EmailAt text p) ∧
    ((extract_details text).email ≠ notFound →
      EmailShaped ((extract_details text).email) ∧
      ∃ p t, (extract_details text).email ++ t = text.drop p ∧
        ∀ q < p, ¬ EmailAt text q) := by
  cases hs : emailSearch text with
  | none =>
    have he : (extract_details text).email = notFound := extract_email_none hs
    constructor
    · rw [he]
      constructor
      · intro _ p hEA
        obtain ⟨s, t, hsh, hst⟩ := hEA
        obtain ⟨m, hm⟩ := emailMatchAt_complete hsh hst
        rw [(emailSearch_none_iff text).mp hs p] at hm
        exact absurd hm (by simp)
      · intro _
        rfl
    · intro hne
      exact absurd he hne
  | some m =>
    have he : (extract_details text).email = m := extract_email_some hs
    obtain ⟨p, hp, hq⟩ := emailSearch_some hs
    obtain ⟨hshape, t, ht⟩ := emailMatchAt_sound hp
    constructor
    · rw [he]
      constructor
      · intro hmn
        exfalso
        have : '@' ∈ notFound := hmn ▸ emailShaped_mem_at hshape
        exact absurd this (by decide)
      · intro hall
        exact absurd ⟨m, t, hshape, ht⟩ (hall p)
    · intro _
      rw [he]
      refine ⟨hshape, p, t, ht, ?_⟩
      intro q hqp hEA
      obtain ⟨s', t', hsh', hst'⟩ := hEA
      obtain ⟨m', hm'⟩ := emailMatchAt_complete hsh' hst'
      rw [hq q hqp] at hm'
      exact absurd hm' (by simp)

/-- Witness for C4: an e-mail embedded in a longer sentence is found. -/
theorem claim_C4_witness :
    EmailShaped ((extract_details ("see x@y.com now".data)).email) ∧
    ∃ p t, (extract_details ("see x@y.com now".data)).email ++ t =
        ("see x@y.com now".data).drop p ∧
      ∀ q < p, ¬ EmailAt ("see x@y.com now".data) q :=
  (claim_C4_thm ("see x@y.com now".data)).2 (by decide)

/-- Claim C5: for every input, the output record carries exactly the 7
fixed keys Name, JobTitle, Company, Email, Phone, Address, Website in this
order, each paired with a string value; no key is ever absent and the
value type admits no null. -/
theorem claim_C5_thm (text : List Char) :
    (extract_business_card_details text).map Prod.fst =
      ["Name".data, "JobTitle".data, "Company".data, "Email".data,
       "Phone".data, "Address".data, "Website".data] := rfl

/-- Claim C6: extraction is total (a record always exists; the embedding is
a total function, mirroring that the source raises nothing on string
input), and the absence of a match for any individual field is not a
failure: that field resolves to the sentinel. -/
theorem claim_C6_thm (text : List Char) :
    (∃ r, extract_business_card_details text = r) ∧
    (emailSearch text = none → (extract_details text).email = notFound) ∧
    (phoneSearch text = none → (extract_details text).phone = notFound) ∧
    (((linesOf text).take 8).find? nameQualifies = none →
      (extract_details text).name = notFound) := by
  refine ⟨⟨_, rfl⟩, extract_email_none, extract_phone_none, fun h => ?_⟩
  have hn : (extract_details text).name = findName ((linesOf text).take 8) := rfl
  rw [hn, findName_eq, h]
  rfl

/-- Witness for C6 at a concrete matchless input. -/
theorem claim_C6_witness :
    (extract_details ("xyz".data)).email = notFound ∧
    (extract_details ("xyz".data)).phone = notFound ∧
    (extract_details ("xyz".data)).name = notFound :=
  ⟨(claim_C6_thm ("xyz".data)).2.1 (by decide),
   (claim_C6_thm ("xyz".data)).2.2.1 (by decide),
   (claim_C6_thm ("xyz".data)).2.2.2 (by decide)⟩

/-- Claim C7: on the empty string, extraction returns the record with every
field resolved to the sentinel, and no error (the embedding is total). -/
theorem claim_C7_thm :
    extract_business_card_details [] =
      [("Name".data, notFound), ("JobTitle".data, notFound),
       ("Company".data, notFound), ("Email".data, notFound),
       ("Phone".data, notFound), ("Address".data, notFound),
       ("Website".data, notFound)] := by
  decide

/-- Claim C8: extraction is deterministic and stateless: two runs on the
same input text produce identical output records. -/
theorem claim_C8_thm (text : List Char) (r₁ r₂ : List (List Char × List Char))
    (h₁ : extract_business_card_details text = r₁)
    (h₂ : extract_business_card_details text = r₂) : r₁ = r₂ :=
  h₁.symm.trans h₂

/-- Witness for C8 at a concrete input. -/
theorem claim_C8_witness :
    extract_business_card_details ("a".data) =
      extract_business_card_details ("a".data) :=
  claim_C8_thm ("a".data) _ _ rfl rfl

/-- Claim C9: when the Phone field resolves, the matched token begins at
character position 0 of the raw text: the text decomposes as the match
followed by the remainder, and the resolved value is the stripped match;
hence a phone number appearing only on a later line is never extracted. -/
theorem claim_C9_thm (text : List Char)
    (h : (extract_details text).phone ≠ notFound) :
    ∃ m rest, text = m ++ rest ∧ phoneSearch text = some m ∧
      (extract_details text).phone = pyStrip m := by
  cases hs : phoneSearch text with
  | none => exact absurd (extract_phone_none hs) h
  | some m =>
    obtain ⟨rest, hsplit, _, _⟩ := phoneSearch_split hs
    exact ⟨m, rest, hsplit, rfl, extract_phone_some hs⟩

/-- Witness for C9 at a concrete input whose Phone resolves. -/
theorem claim_C9_witness :
    ∃ m rest, "987 654 3210".data = m ++ rest ∧
      phoneSearch ("987 654 3210".data) = some m ∧
      (extract_details ("987 654 3210".data)).phone = pyStrip m :=
  claim_C9_thm ("987 654 3210".data) (by decide)

/-- Claim C10: there is an input whose resolved Phone value contains a
newline: the separator class of the phone pattern includes all whitespace,
so a match can span several lines of the input. -/
theorem claim_C10_thm :
    ∃ text : List Char, (extract_details text).phone ≠ notFound ∧
      '\n' ∈ (extract_details text).phone :=
  ⟨"123\n4567890".data, by decide, by decide⟩

end OCRScan
